import Mathlib

/-!
Verification of the pyTigerGraph UDF headers.

The repository consists of three C++ headers:
  * `src/cicd/graph_script/ExprFunctions.hpp` — five user-defined scalar
    functions (`str_to_int`, `float_to_int`, `to_string`, `get_minutes`,
    `is_contains`);
  * `src/tests/fixtures/ExprFunctions.hpp` — one function `add_3`;
  * `src/tests/fixtures/ExprUtil.hpp` — constants `BASE` and `MOD`.

C++ `std::string` values are embedded as `List Char`.  `std::string::find`
(returning `npos` on failure) is embedded as an `Option Nat`-valued search;
`npos` corresponds to `none`.  C `int` values are embedded as unbounded `Int`
(the C++ code has defined behaviour only where `int` arithmetic does not
overflow); for the fixture `add_3` an explicit 32-bit two's-complement
bit-pattern model is also given.
-/

namespace TG

/-- The delimiter `", "` used by `get_minutes`. -/
def delimS : List Char := ", ".toList

/-- Scanner behind `strFind`: smallest index `≥ i` (indices counted from the
start of the scanned suffix) at which `pat` is a prefix of the corresponding
suffix of the list. -/
def strFindAux (pat : List Char) : List Char → Nat → Option Nat
  | [], i => if pat.isPrefixOf [] then some i else none
  | c :: t, i => if pat.isPrefixOf (c :: t) then some i else strFindAux pat t (i + 1)

/-- Embedding of `hay.find(pat, start)` on `std::string`: the smallest
position `j ≥ start` with `pat` occurring at `j` in `hay`, or `none` (npos).
This agrees with `std::string::find` for every nonempty needle, and for an
empty needle whenever `start = 0`; the source only performs such calls. -/
def strFind (hay pat : List Char) (start : Nat) : Option Nat :=
  (strFindAux pat (hay.drop start) 0).map (· + start)

/-- The six whitespace characters recognised by `isspace` in the C locale,
as skipped by `atoi`. -/
def isSpaceC (c : Char) : Bool :=
  c = ' ' || c = '\t' || c = '\n' || c = '\x0b' || c = '\x0c' || c = '\r'

/-- Value of the maximal decimal-digit prefix of a character list, folded
onto an accumulator, as consumed by `atoi` after sign handling. -/
def digitsVal : List Char → Nat → Nat
  | [], acc => acc
  | c :: cs, acc => if c.isDigit then digitsVal cs (acc * 10 + (c.toNat - 48)) else acc

/-- Model of C `atoi` on its defined domain (ISO C: skip whitespace, read an
optional sign and a maximal digit string; the result is unspecified only when
the value overflows `int`, which the embedding keeps exact in `Int`). -/
def atoi (s : List Char) : Int :=
  match s.dropWhile isSpaceC with
  | [] => 0
  | c :: rest =>
    if c = '-' then -(digitsVal rest 0 : Int)
    else if c = '+' then (digitsVal rest 0 : Int)
    else (digitsVal (c :: rest) 0 : Int)

/-- `str_to_int` from `src/cicd/graph_script/ExprFunctions.hpp`:
`return atoi(str.c_str());`. -/
def str_to_int (str : List Char) : Int := atoi str

/-- `"days"`. -/
def daysS : List Char := "days".toList
/-- `"hours"`. -/
def hoursS : List Char := "hours".toList
/-- `"minutes"`. -/
def minutesS : List Char := "minutes".toList
/-- `" "`. -/
def spaceS : List Char := " ".toList

/-- One iteration body of the `get_minutes` loop: split `time_str` at the
first `" "` into `num_str`/`unit_str` and return the contribution added to
`total`.  When `find` fails, `substr(0, npos)` is the whole string and
`substr(npos + 1)` is `substr(0)` (the `size_t` increment of `npos` wraps to
`0`), so both halves are `time_str` itself. -/
def segAdd (time_str : List Char) : Int :=
  let space_ch := strFind time_str spaceS 0
  let num_str := match space_ch with
    | some i => time_str.take i
    | none => time_str
  let unit_str := match space_ch with
    | some i => time_str.drop (i + 1)
    | none => time_str
  let num_t := str_to_int num_str
  if unit_str = daysS then num_t * 60 * 24
  else if unit_str = hoursS then num_t * 60
  else if unit_str = minutesS then num_t
  else 0

/-- The `while (cur != string::npos)` loop of `get_minutes`, with an explicit
fuel argument (the loop advances `prev` by at least 2 per iteration, so
`str.length + 1` units of fuel always suffice; see `getMinLoop_spec`). -/
def getMinLoop : Nat → List Char → Nat → Int → Int
  | 0, _, _, total => total
  | fuel + 1, str, prev, total =>
    match strFind str delimS prev with
    | none => total
    | some cur =>
        getMinLoop fuel str (cur + 2) (total + segAdd ((str.drop prev).take (cur - prev)))

/-- `get_minutes` from `src/cicd/graph_script/ExprFunctions.hpp`: return `0`
for the empty string, else sum the contributions of the `", "`-terminated
segments. -/
def get_minutes (str : List Char) : Int :=
  if str = [] then 0 else getMinLoop (str.length + 1) str 0 0

/-- `is_contains` from `src/cicd/graph_script/ExprFunctions.hpp`:
`return str1.find(str2) != string::npos;`. -/
def is_contains (str1 str2 : List Char) : Bool :=
  (strFind str1 str2 0).isSome

/-! ### Characterisation of the scanner -/

theorem strFindAux_some (pat : List Char) :
    ∀ (l : List Char) (i j : Nat), strFindAux pat l i = some j →
      i ≤ j ∧ pat <+: l.drop (j - i)
  | [], i, j => by
    simp only [strFindAux]
    split
    · rename_i hpre
      intro h
      obtain rfl : i = j := by simpa using h
      simpa [List.isPrefixOf_iff_prefix] using hpre
    · intro h; simp at h
  | c :: t, i, j => by
    simp only [strFindAux]
    split
    · rename_i hpre
      intro h
      obtain rfl : i = j := by simpa using h
      simpa [List.isPrefixOf_iff_prefix] using hpre
    · intro h
      obtain ⟨h1, h2⟩ := strFindAux_some pat t (i + 1) j h
      refine ⟨by omega, ?_⟩
      have hji : j - i = (j - (i + 1)) + 1 := by omega
      rw [hji]
      simpa using h2

theorem strFindAux_none (pat : List Char) :
    ∀ (l : List Char) (i : Nat), strFindAux pat l i = none →
      ∀ k, ¬ pat <+: l.drop k
  | [], i => by
    simp only [strFindAux]
    split
    · intro h; simp at h
    · rename_i hpre
      intro _ k
      simpa [List.isPrefixOf_iff_prefix] using hpre
  | c :: t, i => by
    simp only [strFindAux]
    split
    · intro h; simp at h
    · rename_i hpre
      intro h k
      match k with
      | 0 => simpa [List.isPrefixOf_iff_prefix] using hpre
      | k + 1 => simpa using strFindAux_none pat t (i + 1) h k

theorem strFindAux_min (pat : List Char) :
    ∀ (l : List Char) (i j : Nat), strFindAux pat l i = some j →
      ∀ k, k < j - i → ¬ pat <+: l.drop k
  | [], i, j => by
    simp only [strFindAux]
    split
    · intro h
      obtain rfl : i = j := by simpa using h
      omega
    · intro h; simp at h
  | c :: t, i, j => by
    simp only [strFindAux]
    split
    · intro h
      obtain rfl : i = j := by simpa using h
      omega
    · rename_i hpre
      intro h k hk
      have hij := (strFindAux_some pat t (i + 1) j h).1
      match k with
      | 0 => simpa [List.isPrefixOf_iff_prefix] using hpre
      | k + 1 =>
        have : k < j - (i + 1) := by omega
        simpa using strFindAux_min pat t (i + 1) j h k this

theorem strFind_some {hay pat : List Char} {start j : Nat}
    (h : strFind hay pat start = some j) :
    start ≤ j ∧ pat <+: hay.drop j := by
  rw [strFind, Option.map_eq_some'] at h
  obtain ⟨m, hm, rfl⟩ := h
  obtain ⟨-, h2⟩ := strFindAux_some pat (hay.drop start) 0 m hm
  constructor
  · omega
  · rw [List.drop_drop] at h2
    simpa [Nat.add_comm] using h2

theorem strFind_min {hay pat : List Char} {start j : Nat}
    (h : strFind hay pat start = some j) :
    ∀ k, start ≤ k → k < j → ¬ pat <+: hay.drop k := by
  intro k hk1 hk2 hpre
  rw [strFind, Option.map_eq_some'] at h
  obtain ⟨m, hm, rfl⟩ := h
  refine strFindAux_min pat (hay.drop start) 0 m hm (k - start) (by omega) ?_
  rw [List.drop_drop]
  have : start + (k - start) = k := by omega
  rw [this]
  exact hpre

theorem strFind_none_iff {hay pat : List Char} {start : Nat} :
    strFind hay pat start = none ↔ ∀ j, start ≤ j → ¬ pat <+: hay.drop j := by
  constructor
  · intro h j hj hpre
    rw [strFind, Option.map_eq_none'] at h
    refine strFindAux_none pat (hay.drop start) 0 h (j - start) ?_
    rw [List.drop_drop]
    have : start + (j - start) = j := by omega
    rw [this]
    exact hpre
  · intro hall
    cases h : strFind hay pat start with
    | none => rfl
    | some j =>
      obtain ⟨h1, h2⟩ := strFind_some h
      exact absurd h2 (hall j h1)

theorem strFind_intro {hay pat : List Char} {start j : Nat}
    (h1 : start ≤ j) (h2 : pat <+: hay.drop j)
    (h3 : ∀ k, start ≤ k → k < j → ¬ pat <+: hay.drop k) :
    strFind hay pat start = some j := by
  cases h : strFind hay pat start with
  | none => exact absurd h2 (strFind_none_iff.mp h j h1)
  | some j' =>
    obtain ⟨h1', h2'⟩ := strFind_some h
    rcases Nat.lt_trichotomy j' j with hlt | heq | hgt
    · exact absurd h2' (h3 j' h1' hlt)
    · rw [heq]
    · exact absurd h2 (strFind_min h j h1 hgt)

theorem strFind_shift (hay pat : List Char) (prev : Nat) :
    strFind hay pat prev = (strFind (hay.drop prev) pat 0).map (· + prev) := by
  simp [strFind, Option.map_map, Function.comp_def]

/-! ### Segment decomposition of `get_minutes` -/

/-- Fueled splitter: the list of `", "`-terminated segments of `s`, in order. -/
def segsOfF : Nat → List Char → List (List Char)
  | 0, _ => []
  | fuel + 1, s =>
    match strFind s delimS 0 with
    | none => []
    | some cur => s.take cur :: segsOfF fuel (s.drop (cur + 2))

/-- The list of `", "`-terminated segments of `s`. -/
def segsOf (s : List Char) : List (List Char) := segsOfF (s.length + 1) s

theorem delimS_length : delimS.length = 2 := rfl

theorem segsOfF_congr : ∀ (f1 : Nat), ∀ (f2 : Nat) (s : List Char),
    s.length < f1 → s.length < f2 → segsOfF f1 s = segsOfF f2 s
  | 0 => by omega
  | f1 + 1 => by
    intro f2 s h1 h2
    match f2 with
    | 0 => omega
    | f2 + 1 =>
      simp only [segsOfF]
      cases h : strFind s delimS 0 with
      | none => rfl
      | some cur =>
        obtain ⟨-, hpre⟩ := strFind_some h
        have hcur : cur + 2 ≤ s.length := by
          have := hpre.length_le
          rw [List.length_drop, delimS_length] at this
          omega
        have hlen : (s.drop (cur + 2)).length < f1 := by
          rw [List.length_drop]; omega
        have hlen2 : (s.drop (cur + 2)).length < f2 := by
          rw [List.length_drop]; omega
        simp only [List.cons.injEq, true_and]
        exact segsOfF_congr f1 f2 (s.drop (cur + 2)) hlen hlen2

theorem segsOf_eq_nil {s : List Char} (h : strFind s delimS 0 = none) :
    segsOf s = [] := by
  simp [segsOf, segsOfF, h]

theorem segsOfF_succ (fuel : Nat) (s : List Char) :
    segsOfF (fuel + 1) s =
      match strFind s delimS 0 with
      | none => []
      | some cur => s.take cur :: segsOfF fuel (s.drop (cur + 2)) := rfl

theorem segsOf_eq_cons {s : List Char} {cur : Nat}
    (h : strFind s delimS 0 = some cur) :
    segsOf s = s.take cur :: segsOf (s.drop (cur + 2)) := by
  obtain ⟨-, hpre⟩ := strFind_some h
  have hcur : cur + 2 ≤ s.length := by
    have := hpre.length_le
    rw [List.length_drop, delimS_length] at this
    omega
  rw [segsOf, segsOfF_succ, h]
  simp only [List.cons.injEq, true_and]
  refine segsOfF_congr _ _ _ ?_ ?_ <;> rw [List.length_drop] <;> omega

theorem getMinLoop_spec : ∀ (fuel : Nat) (str : List Char) (prev : Nat) (total : Int),
    str.length - prev < fuel →
    getMinLoop fuel str prev total = total + ((segsOf (str.drop prev)).map segAdd).sum
  | 0, _, _, _ => by omega
  | fuel + 1, str, prev, total => by
    intro hfuel
    simp only [getMinLoop]
    cases h : strFind str delimS prev with
    | none =>
      have h0 : strFind (str.drop prev) delimS 0 = none := by
        have := strFind_shift str delimS prev
        rw [h] at this
        exact Option.map_eq_none'.mp this.symm
      rw [segsOf_eq_nil h0]
      simp
    | some cur =>
      obtain ⟨hpc, hpre⟩ := strFind_some h
      have hcur : cur + 2 ≤ str.length := by
        have := hpre.length_le
        rw [List.length_drop, delimS_length] at this
        omega
      have h0 : strFind (str.drop prev) delimS 0 = some (cur - prev) := by
        have hs := strFind_shift str delimS prev
        rw [h] at hs
        obtain ⟨m, hm, hmp⟩ := Option.map_eq_some'.mp hs.symm
        have : m = cur - prev := by omega
        rw [← this]
        exact hm
      dsimp only
      rw [segsOf_eq_cons h0, List.drop_drop]
      have harith : prev + (cur - prev + 2) = cur + 2 := by omega
      rw [harith]
      have hrec := getMinLoop_spec fuel str (cur + 2)
        (total + segAdd ((str.drop prev).take (cur - prev))) (by omega)
      rw [hrec]
      simp [add_assoc]

theorem cons_prefix_head {p : Char} {pt X : List Char} (h : (p :: pt) <+: X) :
    X.head? = some p := by
  obtain ⟨t, rfl⟩ := h
  rfl

theorem no_comma_strFind {s : List Char} (h : ',' ∉ s) :
    strFind s delimS 0 = none := by
  refine strFind_none_iff.mpr fun j _ hpre => ?_
  have hc : ',' ∈ delimS := by decide
  exact h (List.drop_subset j s (hpre.subset hc))

theorem strFind_append_cons (r tail pt : List Char) (p : Char)
    (hp : p ∉ r) (hpre : (p :: pt) <+: (p :: tail)) :
    strFind (r ++ p :: tail) (p :: pt) 0 = some r.length := by
  refine strFind_intro (Nat.zero_le _) ?_ ?_
  · rw [List.drop_left]
    exact hpre
  · intro k _ hk hpre2
    have hhead := cons_prefix_head hpre2
    rw [List.head?_drop, List.getElem?_append_left hk] at hhead
    exact hp (List.getElem?_mem hhead)

/-- Prefixes shorter than the left part of an append are prefixes of it. -/
theorem prefix_of_prefix_append {pat A B : List Char}
    (h : pat <+: A ++ B) (hlen : pat.length ≤ A.length) : pat <+: A := by
  rw [List.prefix_iff_eq_take] at h ⊢
  rw [h, List.take_append_eq_append_take]
  have : pat.length - A.length = 0 := by omega
  rw [this, List.take_zero, List.append_nil, List.length_take, Nat.min_eq_left hlen]

/-- Splitting into `", "`-terminated segments distributes over concatenation
at a delimiter boundary. -/
theorem segsOf_append : ∀ (n : Nat) (s1 s2 : List Char), s1.length ≤ n →
    delimS <:+ s1 → segsOf (s1 ++ s2) = segsOf s1 ++ segsOf s2
  | 0, s1, s2 => by
    intro hn hsuf
    have := hsuf.length_le
    rw [delimS_length] at this
    omega
  | n + 1, s1, s2 => by
    intro hn hsuf
    obtain ⟨t, ht⟩ := hsuf
    -- the trailing delimiter is an occurrence, so the first occurrence exists
    have hocc : delimS <+: s1.drop t.length := by
      rw [← ht, List.drop_left]
    have hne : strFind s1 delimS 0 ≠ none := fun hno =>
      strFind_none_iff.mp hno t.length (Nat.zero_le _) hocc
    obtain ⟨cur, hcur⟩ : ∃ cur, strFind s1 delimS 0 = some cur := by
      cases h : strFind s1 delimS 0 with
      | none => exact absurd h hne
      | some c => exact ⟨c, rfl⟩
    obtain ⟨-, hpre⟩ := strFind_some hcur
    have hlen1 : cur + 2 ≤ s1.length := by
      have := hpre.length_le
      rw [List.length_drop, delimS_length] at this
      omega
    have hcurt : cur ≤ t.length := by
      by_contra hgt
      exact strFind_min hcur t.length (Nat.zero_le _) (by omega) hocc
    have hlent : s1.length = t.length + 2 := by
      rw [← ht, List.length_append, delimS_length]
    -- first occurrence in `s1 ++ s2` is the same position
    have hcur2 : strFind (s1 ++ s2) delimS 0 = some cur := by
      refine strFind_intro (Nat.zero_le _) ?_ ?_
      · rw [List.drop_append_eq_append_drop]
        have : cur - s1.length = 0 := by omega
        rw [this, List.drop_zero]
        exact hpre.trans (List.prefix_append _ _)
      · intro k _ hk hpre2
        rw [List.drop_append_eq_append_drop] at hpre2
        have hk0 : k - s1.length = 0 := by omega
        rw [hk0, List.drop_zero] at hpre2
        have : delimS <+: s1.drop k := by
          refine prefix_of_prefix_append hpre2 ?_
          rw [List.length_drop, delimS_length]
          omega
        exact strFind_min hcur k (Nat.zero_le _) hk this
    rw [segsOf_eq_cons hcur, segsOf_eq_cons hcur2]
    rw [List.take_append_eq_append_take]
    have htk : cur - s1.length = 0 := by omega
    rw [htk, List.take_zero, List.append_nil]
    rw [List.drop_append_eq_append_drop]
    have hdk : cur + 2 - s1.length = 0 := by omega
    rw [hdk, List.drop_zero]
    by_cases hend : cur + 2 = s1.length
    · have hnil : s1.drop (cur + 2) = [] := by
        rw [hend]
        exact List.drop_length s1
      rw [hnil]
      have h0 : strFind ([] : List Char) delimS 0 = none := rfl
      rw [segsOf_eq_nil h0]
      simp
    · -- the next occurrence cannot overlap the trailing delimiter
      have hcne : cur + 2 ≠ t.length + 1 := by
        intro habs
        have h1 : s1.get? (cur + 1) = some ' ' := by
          obtain ⟨u, hu⟩ := hpre
          have : s1.drop cur = ',' :: ' ' :: u := by
            rw [← hu]
            rfl
          rw [List.get?_eq_getElem?, ← List.head?_drop]
          have hdd : s1.drop (cur + 1) = ' ' :: u := by
            have := congrArg (List.drop 1) this
            rwa [List.drop_drop] at this
          rw [hdd]
          rfl
        have h2 : s1.get? t.length = some ',' := by
          rw [← ht, List.get?_eq_getElem?]
          rw [List.getElem?_append_right (Nat.le_refl _)]
          simp [delimS]
        have : cur + 1 = t.length := by omega
        rw [this, h2] at h1
        simp at h1
      have hclt : cur + 2 ≤ t.length := by omega
      have hsuf2 : delimS <:+ s1.drop (cur + 2) := by
        rw [← ht, List.drop_append_eq_append_drop]
        have : cur + 2 - t.length = 0 := by omega
        rw [this, List.drop_zero]
        exact List.suffix_append _ _
      have hrec := segsOf_append n (s1.drop (cur + 2)) s2
        (by rw [List.length_drop]; omega) hsuf2
      rw [hrec]
      simp

theorem get_minutes_eq_sum (s : List Char) :
    get_minutes s = ((segsOf s).map segAdd).sum := by
  by_cases hs : s = []
  · subst hs
    have h0 : strFind ([] : List Char) delimS 0 = none := rfl
    rw [segsOf_eq_nil h0]
    rfl
  · rw [get_minutes, if_neg hs]
    have := getMinLoop_spec (s.length + 1) s 0 0 (by omega)
    rw [this, List.drop_zero, zero_add]

theorem get_minutes_append {s1 s2 : List Char} (h : delimS <:+ s1) :
    get_minutes (s1 ++ s2) = get_minutes s1 + get_minutes s2 := by
  rw [get_minutes_eq_sum, get_minutes_eq_sum, get_minutes_eq_sum,
    segsOf_append s1.length s1 s2 (Nat.le_refl _) h, List.map_append, List.sum_append]

/-! ### Rendered duration segments -/

/-- The three units understood by `get_minutes`. -/
inductive TimeUnit where
  | days
  | hours
  | minutes

/-- The unit keyword of a segment. -/
def unitName : TimeUnit → List Char
  | .days => daysS
  | .hours => hoursS
  | .minutes => minutesS

/-- Minutes per unit: a day counts 1440 minutes, an hour 60. -/
def unitWeight : TimeUnit → Int
  | .days => 1440
  | .hours => 60
  | .minutes => 1

/-- A segment `"<N> days" / "<N> hours" / "<N> minutes"`: a digit string,
one space, the unit keyword. -/
def renderSeg (sg : List Char × TimeUnit) : List Char :=
  sg.1 ++ ' ' :: unitName sg.2

/-- The duration denoted by a segment, in minutes. -/
def segVal (sg : List Char × TimeUnit) : Int :=
  (digitsVal sg.1 0 : Int) * unitWeight sg.2

/-- Joining segments with the delimiter `", "` (no trailing delimiter). -/
def joinDelim : List (List Char) → List Char
  | [] => []
  | [x] => x
  | x :: y :: xs => (x ++ delimS) ++ joinDelim (y :: xs)

theorem isDigit_facts {c : Char} (h : c.isDigit = true) :
    isSpaceC c = false ∧ c ≠ '-' ∧ c ≠ '+' ∧ c ≠ ',' ∧ c ≠ ' ' := by
  refine ⟨?_, ?_, ?_, ?_, ?_⟩
  · by_contra hsp
    rw [Bool.not_eq_false] at hsp
    simp only [isSpaceC, Bool.or_eq_true, decide_eq_true_eq] at hsp
    rcases hsp with ((((h1 | h1) | h1) | h1) | h1) | h1 <;> subst h1 <;> exact absurd h (by decide)
  · intro h1; subst h1; exact absurd h (by decide)
  · intro h1; subst h1; exact absurd h (by decide)
  · intro h1; subst h1; exact absurd h (by decide)
  · intro h1; subst h1; exact absurd h (by decide)

theorem atoi_digits {ds : List Char} (hne : ds ≠ [])
    (hd : ∀ c ∈ ds, c.isDigit) : atoi ds = (digitsVal ds 0 : Int) := by
  match ds, hne with
  | c :: rest, _ =>
    have hc : c.isDigit := hd c (List.mem_cons_self c rest)
    obtain ⟨hsp, hminus, hplus, -, -⟩ := isDigit_facts hc
    have hdw : (c :: rest).dropWhile isSpaceC = c :: rest := by
      rw [List.dropWhile_cons, hsp]
      simp
    simp only [atoi, hdw]
    rw [if_neg hminus, if_neg hplus]

theorem comma_not_mem_render (sg : List Char × TimeUnit)
    (hd : ∀ c ∈ sg.1, c.isDigit) : ',' ∉ renderSeg sg := by
  obtain ⟨ds, u⟩ := sg
  dsimp only [renderSeg] at hd ⊢
  intro hmem
  rw [List.mem_append, List.mem_cons] at hmem
  rcases hmem with hmem | hmem | hmem
  · exact (isDigit_facts (hd ',' hmem)).2.2.2.1 rfl
  · exact absurd hmem (by decide)
  · cases u <;> revert hmem <;> decide

theorem segAdd_render (sg : List Char × TimeUnit) (hne : sg.1 ≠ [])
    (hd : ∀ c ∈ sg.1, c.isDigit) : segAdd (renderSeg sg) = segVal sg := by
  obtain ⟨ds, u⟩ := sg
  dsimp only [renderSeg, segVal] at hne hd ⊢
  have hnospace : ' ' ∉ ds := fun hmem =>
    (isDigit_facts (hd ' ' hmem)).2.2.2.2 rfl
  have hsp : strFind (ds ++ ' ' :: unitName u) spaceS 0 = some ds.length := by
    have := strFind_append_cons ds (unitName u) [] ' '
      hnospace (List.prefix_append [' '] (unitName u))
    simpa [spaceS] using this
  have hdrop : (ds ++ ' ' :: unitName u).drop (ds.length + 1) = unitName u := by
    have h1 : (ds ++ ' ' :: unitName u).drop ds.length = ' ' :: unitName u :=
      List.drop_left ds (' ' :: unitName u)
    have h2 := congrArg (List.drop 1) h1
    rwa [List.drop_drop] at h2
  simp only [segAdd, hsp]
  rw [List.take_left, hdrop]
  rw [str_to_int, atoi_digits hne hd]
  have hqd : hoursS ≠ daysS := by decide
  have hmd : minutesS ≠ daysS := by decide
  have hmh : minutesS ≠ hoursS := by decide
  cases u <;> simp [unitName, unitWeight, mul_assoc, hqd, hmd, hmh]

theorem segsOf_single {r : List Char} (h : ',' ∉ r) :
    segsOf (r ++ delimS) = [r] := by
  have hfind : strFind (r ++ delimS) delimS 0 = some r.length := by
    have := strFind_append_cons r [' '] [' '] ','
      h (List.prefix_refl _)
    simpa [delimS] using this
  rw [segsOf_eq_cons hfind]
  have hnil : (r ++ delimS).drop (r.length + 2) = [] := by
    apply List.drop_of_length_le
    rw [List.length_append, delimS_length]
  rw [hnil, List.take_left]
  have h0 : strFind ([] : List Char) delimS 0 = none := rfl
  rw [segsOf_eq_nil h0]

theorem get_minutes_single (sg : List Char × TimeUnit) (hne : sg.1 ≠ [])
    (hd : ∀ c ∈ sg.1, c.isDigit) :
    get_minutes (renderSeg sg ++ delimS) = segVal sg := by
  rw [get_minutes_eq_sum, segsOf_single (comma_not_mem_render sg hd)]
  simp [segAdd_render sg hne hd]

theorem get_minutes_render_alone (sg : List Char × TimeUnit)
    (hd : ∀ c ∈ sg.1, c.isDigit) : get_minutes (renderSeg sg) = 0 := by
  rw [get_minutes_eq_sum, segsOf_eq_nil (no_comma_strFind (comma_not_mem_render sg hd))]
  rfl

theorem infix_of_prefix_drop {s pat : List Char} {j : Nat} (h : pat <+: s.drop j) :
    pat <:+: s := by
  obtain ⟨t, ht⟩ := h
  exact ⟨s.take j, t, by rw [List.append_assoc, ht, List.take_append_drop]⟩

/-! ### Claim theorems for `get_minutes` and `is_contains` -/

/-- C1, counterexample: on `"2 days, 3 hours, 30 minutes"` the function
returns 3060, not the claimed 2·1440 + 3·60 + 30 = 3090 — the final
segment, not being followed by `", "`, is never processed by the loop. -/
theorem get_minutes_example_value :
    get_minutes ("2 days, 3 hours, 30 minutes".toList) = 3060 ∧
    (3060 : Int) ≠ 2 * 1440 + 3 * 60 + 30 :=
  ⟨by decide, by decide⟩

/-- C1 (amended): for every nonempty list of segments `"<N> days"`,
`"<N> hours"`, `"<N> minutes"` (N a decimal numeral) joined by `", "`,
`get_minutes` returns the total minutes of all segments except the last
(each day 1440 minutes, each hour 60); the final segment, not followed by
the delimiter, contributes nothing. -/
theorem get_minutes_joined (segs : List (List Char × TimeUnit))
    (hne : segs ≠ [])
    (hds : ∀ sg ∈ segs, sg.1 ≠ [] ∧ ∀ c ∈ sg.1, c.isDigit) :
    get_minutes (joinDelim (segs.map renderSeg)) = (segs.dropLast.map segVal).sum := by
  induction segs with
  | nil => exact absurd rfl hne
  | cons sg rest ih =>
    have hsg := hds sg (List.mem_cons_self _ _)
    cases rest with
    | nil =>
      simp only [List.map_cons, List.map_nil, joinDelim]
      rw [get_minutes_render_alone sg hsg.2]
      rfl
    | cons sg2 rest2 =>
      have hds2 : ∀ x ∈ sg2 :: rest2, x.1 ≠ [] ∧ ∀ c ∈ x.1, c.isDigit :=
        fun x hx => hds x (List.mem_cons_of_mem _ hx)
      simp only [List.map_cons]
      rw [joinDelim]
      rw [get_minutes_append (List.suffix_append _ _)]
      rw [get_minutes_single sg hsg.1 hsg.2]
      have hih := ih (by simp) hds2
      simp only [List.map_cons] at hih
      rw [hih]
      rw [List.dropLast_cons₂, List.map_cons, List.sum_cons]

/-- C1 witness: the amended statement evaluated on the segments of the
example string. -/
theorem get_minutes_joined_witness :
    get_minutes (joinDelim
      ([("2".toList, TimeUnit.days), ("3".toList, TimeUnit.hours),
        ("30".toList, TimeUnit.minutes)].map renderSeg)) = 3060 := by
  have h := get_minutes_joined
    [("2".toList, TimeUnit.days), ("3".toList, TimeUnit.hours),
      ("30".toList, TimeUnit.minutes)] (by simp) (by decide)
  rw [h]
  decide

/-- C2: on the empty string `get_minutes` returns 0 (the early-return
branch; the embedding is a pure function of the argument alone). -/
theorem get_minutes_empty : get_minutes ([] : List Char) = 0 := rfl

/-- C3: `is_contains str1 str2` is true exactly when `str2` occurs as a
contiguous substring of `str1`; in particular it is true for the empty
needle and for `str2 = str1`. -/
theorem is_contains_iff_infix : ∀ s1 s2 : List Char,
    (is_contains s1 s2 = true ↔ s2 <:+: s1) ∧
    is_contains s1 [] = true ∧ is_contains s1 s1 = true := by
  intro s1 s2
  have hmain : ∀ t : List Char, is_contains s1 t = true ↔ t <:+: s1 := by
    intro t
    constructor
    · intro h
      rw [is_contains] at h
      cases hf : strFind s1 t 0 with
      | none => rw [hf] at h; simp at h
      | some j => exact infix_of_prefix_drop (strFind_some hf).2
    · rintro ⟨a, b, hab⟩
      rw [is_contains]
      cases hf : strFind s1 t 0 with
      | some j => rfl
      | none =>
        exfalso
        refine strFind_none_iff.mp hf a.length (Nat.zero_le _) ?_
        rw [← hab, List.append_assoc, List.drop_left]
        exact List.prefix_append _ _
  exact ⟨hmain s2, (hmain []).mpr ⟨[], s1, by simp⟩, (hmain s1).mpr ⟨[], [], by simp⟩⟩

/-- C8: a nonempty string containing no occurrence of `", "` yields 0: the
loop body never runs, so a single unterminated segment contributes
nothing. -/
theorem get_minutes_of_no_delim (s : List Char) (_hne : s ≠ [])
    (h : ¬ delimS <:+: s) : get_minutes s = 0 := by
  have hnone : strFind s delimS 0 = none :=
    strFind_none_iff.mpr fun j _ hpre => h (infix_of_prefix_drop hpre)
  rw [get_minutes_eq_sum, segsOf_eq_nil hnone]
  rfl

/-- C8 witness: `"90 minutes"` has no delimiter and yields 0. -/
theorem get_minutes_of_no_delim_witness :
    get_minutes ("90 minutes".toList) = 0 :=
  get_minutes_of_no_delim ("90 minutes".toList) (by decide) (by decide)

/-- C9: `get_minutes` is additive across a concatenation whose left part
ends with the delimiter `", "`. -/
theorem get_minutes_additive (s1 s2 : List Char) (_hne : s1 ≠ [])
    (hsuf : delimS <:+ s1) :
    get_minutes (s1 ++ s2) = get_minutes s1 + get_minutes s2 :=
  get_minutes_append hsuf

/-- C9 witness: splitting `"1 hours, 2 minutes"` after the delimiter. -/
theorem get_minutes_additive_witness :
    get_minutes ("1 hours, ".toList ++ "2 minutes".toList) =
      get_minutes ("1 hours, ".toList) + get_minutes ("2 minutes".toList) ∧
    get_minutes ("1 hours, ".toList) + get_minutes ("2 minutes".toList) = 60 :=
  ⟨get_minutes_additive ("1 hours, ".toList) ("2 minutes".toList)
    (by decide) (by decide), by decide⟩

/-! ### `str_to_int` (C4) -/

/-- Whether `t` begins with an optional sign followed by at least one
decimal digit — the condition under which `atoi` consumes digits. -/
def numericPre (t : List Char) : Bool :=
  match t with
  | [] => false
  | c :: rest =>
    if c = '-' || c = '+' then
      match rest with
      | [] => false
      | d :: _ => d.isDigit
    else c.isDigit

theorem digitsVal_of_not_digit {c : Char} {rest : List Char} {acc : Nat}
    (h : c.isDigit = false) : digitsVal (c :: rest) acc = acc := by
  simp [digitsVal, h]

/-- C4: if the whole string is an optional sign followed by digits denoting
a value representable as a C `int`, `str_to_int` returns that value; if the
string has no numeric prefix after optional whitespace it returns 0. -/
theorem str_to_int_spec (s : List Char) :
    (∀ sgn ds : List Char, sgn = [] ∨ sgn = ['+'] ∨ sgn = ['-'] → ds ≠ [] →
      (∀ c ∈ ds, c.isDigit) → s = sgn ++ ds →
      -2147483648 ≤ (if sgn = ['-'] then -(digitsVal ds 0 : Int) else (digitsVal ds 0 : Int)) →
      (if sgn = ['-'] then -(digitsVal ds 0 : Int) else (digitsVal ds 0 : Int)) ≤ 2147483647 →
      str_to_int s =
        (if sgn = ['-'] then -(digitsVal ds 0 : Int) else (digitsVal ds 0 : Int))) ∧
    (numericPre (s.dropWhile isSpaceC) = false → str_to_int s = 0) := by
  constructor
  · rintro sgn ds hsgn hne hd rfl - -
    rcases hsgn with rfl | rfl | rfl
    · rw [if_neg (by decide), List.nil_append]
      exact atoi_digits hne hd
    · rw [if_neg (by decide)]
      simp only [str_to_int, atoi, List.cons_append, List.nil_append]
      rw [List.dropWhile_cons, if_neg (by decide)]
      dsimp only
      rw [if_neg (by decide), if_pos rfl]
    · rw [if_pos rfl]
      simp only [str_to_int, atoi, List.cons_append, List.nil_append]
      rw [List.dropWhile_cons, if_neg (by decide)]
      dsimp only
      rw [if_pos rfl]
  · intro h
    simp only [str_to_int, atoi]
    cases hdw : s.dropWhile isSpaceC with
    | nil => rfl
    | cons c rest =>
      rw [hdw] at h
      dsimp only
      simp only [numericPre] at h
      by_cases hc : c = '-'
      · subst hc
        rw [if_pos rfl]
        rw [if_pos (by decide)] at h
        cases rest with
        | nil => rfl
        | cons d rest2 =>
          dsimp only at h
          rw [digitsVal_of_not_digit h]
          rfl
      · by_cases hc2 : c = '+'
        · subst hc2
          rw [if_neg (by decide), if_pos rfl]
          rw [if_pos (by decide)] at h
          cases rest with
          | nil => rfl
          | cons d rest2 =>
            dsimp only at h
            rw [digitsVal_of_not_digit h]
            rfl
        · rw [if_neg hc, if_neg hc2]
          rw [if_neg (by simp [hc, hc2])] at h
          rw [digitsVal_of_not_digit h]
          rfl

/-- C4 witness: `"-42"` parses to `-42`, and a non-numeric string parses
to `0`. -/
theorem str_to_int_spec_witness :
    str_to_int ("-42".toList) = -42 ∧ str_to_int ("abc".toList) = 0 := by
  constructor
  · have h := (str_to_int_spec ("-42".toList)).1 ['-'] ['4', '2']
      (Or.inr (Or.inr rfl)) (by decide) (by decide) (by decide) (by decide) (by decide)
    rw [h]
    decide
  · exact (str_to_int_spec ("abc".toList)).2 (by decide)

/-! ### Signature surface (C5) -/

/-- C++ types that can occur in a UDF signature. -/
inductive CxxType where
  | tInt
  | tFloat
  | tDouble
  | tBool
  | tString
  | tAccum
  | tVoid
  | tCharPtr
  | tSizeT
  | tUInt64
  | tInt64
deriving DecidableEq

/-- The engine's whitelist of parameter/return types: int, float, double,
bool, string, and engine-provided accumulator types. -/
def allowedType : CxxType → Bool
  | .tInt | .tFloat | .tDouble | .tBool | .tString | .tAccum => true
  | _ => false

/-- A UDF signature as declared in a header: name, parameter types, return
type. -/
structure UdfSig where
  sigName : List Char
  params : List CxxType
  ret : CxxType

/-- The five signatures declared in the production `ExprFunctions.hpp`,
transcribed from the source:
`int str_to_int(string)`, `int float_to_int(float)`,
`string to_string(double)`, `int get_minutes(string)`,
`bool is_contains(string, string)`. -/
def prodSigs : List UdfSig :=
  [⟨"str_to_int".toList, [.tString], .tInt⟩,
   ⟨"float_to_int".toList, [.tFloat], .tInt⟩,
   ⟨"to_string".toList, [.tDouble], .tString⟩,
   ⟨"get_minutes".toList, [.tString], .tInt⟩,
   ⟨"is_contains".toList, [.tString, .tString], .tBool⟩]

/-- The single signature declared in the fixture `ExprFunctions.hpp`:
`int add_3(int)`. -/
def fixtureSigs : List UdfSig :=
  [⟨"add_3".toList, [.tInt], .tInt⟩]

/-- A signature is whitelisted when its return type and all parameter types
are allowed. -/
def sigAllowed (sg : UdfSig) : Bool :=
  allowedType sg.ret && sg.params.all allowedType

/-- C5: every function of the production header has all parameter and
return types drawn from the whitelist. -/
theorem prod_sigs_whitelisted :
    prodSigs.map (fun sg => sg.sigName) =
      ["str_to_int".toList, "float_to_int".toList, "to_string".toList,
       "get_minutes".toList, "is_contains".toList] ∧
    prodSigs.all sigAllowed = true :=
  ⟨by decide, by decide⟩

/-! ### Statelessness (C6) and the fixture `add_3` (C7) -/

/-- C `float`/`double` arguments are modelled by the rational value they
denote.  `float_to_int` from the production header is the C cast
`(int) val`: truncation toward zero (`Int.tdiv` is T-division). -/
def float_to_int (val : Rat) : Int := Int.tdiv val.num (val.den : Int)

/-- `to_string` from the production header applies the `sprintf("%g", val)`
formatting primitive to its argument.  The primitive (C library code, not
part of this repository) is modelled as an arbitrary fixed pure function
`fmtG` from the denoted value to its rendering. -/
def to_string (fmtG : Rat → List Char) (val : Rat) : List Char := fmtG val

/-- `add_3` from the fixture header on 32-bit two's-complement bit
patterns: `return num + 3;`. -/
def add_3 (b : Nat) : Nat := (b + 3) % 4294967296

/-- Signed value denoted by a 32-bit pattern. -/
def int32ToInt (b : Nat) : Int :=
  if b < 2147483648 then (b : Int) else (b : Int) - 4294967296

/-- 32-bit pattern of an `int` value. -/
def int32OfInt (n : Int) : Nat := (n % 4294967296).toNat

/-- A UDF invocation against engine state `g`: every UDF body in this
repository reads only its arguments and writes no global, so an invocation
returns the value of the pure function together with the unchanged
state. -/
def invokeUdf {S A R : Type} (f : A → R) (g : S) (a : A) : R × S := (f a, g)

/-- C6: each of the six UDFs is stateless and deterministic — the result of
an invocation does not depend on the engine state, and the state after the
invocation is the state before it.  (`to_string` is stateless for every
choice of the formatting primitive.) -/
theorem udfs_stateless_deterministic :
    ∀ (S : Type) (g g' : S) (s t : List Char) (x y : Rat)
      (fmtG : Rat → List Char) (b : Nat),
      ((invokeUdf str_to_int g s).1 = (invokeUdf str_to_int g' s).1 ∧
        (invokeUdf str_to_int g s).2 = g) ∧
      ((invokeUdf float_to_int g x).1 = (invokeUdf float_to_int g' x).1 ∧
        (invokeUdf float_to_int g x).2 = g) ∧
      ((invokeUdf (to_string fmtG) g y).1 = (invokeUdf (to_string fmtG) g' y).1 ∧
        (invokeUdf (to_string fmtG) g y).2 = g) ∧
      ((invokeUdf get_minutes g s).1 = (invokeUdf get_minutes g' s).1 ∧
        (invokeUdf get_minutes g s).2 = g) ∧
      ((invokeUdf (fun p : List Char × List Char => is_contains p.1 p.2) g (s, t)).1 =
        (invokeUdf (fun p : List Char × List Char => is_contains p.1 p.2) g' (s, t)).1 ∧
        (invokeUdf (fun p : List Char × List Char => is_contains p.1 p.2) g (s, t)).2 = g) ∧
      ((invokeUdf add_3 g b).1 = (invokeUdf add_3 g' b).1 ∧
        (invokeUdf add_3 g b).2 = g) :=
  fun _ _ _ _ _ _ _ _ _ =>
    ⟨⟨rfl, rfl⟩, ⟨rfl, rfl⟩, ⟨rfl, rfl⟩, ⟨rfl, rfl⟩, ⟨rfl, rfl⟩, ⟨rfl, rfl⟩⟩

/-- C7: the fixture header declares exactly one function, `add_3`, and on
the 32-bit two's-complement embedding it computes `num + 3` with `int`
arithmetic taken modulo 2³². -/
theorem add_3_spec :
    (fixtureSigs.map (fun sg => sg.sigName) = ["add_3".toList] ∧
      fixtureSigs.length = 1) ∧
    ∀ n : Int, -2147483648 ≤ n → n < 2147483648 →
      int32ToInt (add_3 (int32OfInt n)) =
        (n + 3 + 2147483648) % 4294967296 - 2147483648 := by
  refine ⟨⟨by decide, rfl⟩, ?_⟩
  intro n h1 h2
  simp only [add_3, int32ToInt, int32OfInt]
  split_ifs with h <;> omega

/-- C7 witness: `add_3 5 = 8` through the bit-level embedding. -/
theorem add_3_spec_witness : int32ToInt (add_3 (int32OfInt 5)) = 8 := by
  have h := add_3_spec.2 5 (by decide) (by decide)
  rw [h]
  decide

/-! ### The fixture constants `BASE` and `MOD` (C10) -/

/-- `const uint64_t BASE = 1ULL << 63;` from the fixture `ExprUtil.hpp`
(the shift does not overflow `uint64_t`). -/
def BASE : Nat := 1 <<< 63

/-- `const int64_t MOD = 9223372036854775783;` from the fixture
`ExprUtil.hpp`. -/
def MOD : Int := 9223372036854775783

/-- Binary modular exponentiation with fuel; 64 units of fuel cover every
exponent below 2⁶⁴. -/
def powModF : Nat → Nat → Nat → Nat → Nat
  | 0, _, _, n => 1 % n
  | fuel + 1, a, e, n =>
    if e = 0 then 1 % n
    else
      let h := powModF fuel ((a * a) % n) (e / 2) n
      if e % 2 = 1 then (h * a) % n else h

theorem powModF_spec : ∀ (fuel a e n : Nat), 0 < n → e < 2 ^ fuel →
    powModF fuel a e n = a ^ e % n
  | 0, a, e, n => by
    intro hn he
    have he0 : e = 0 := by simpa using he
    subst he0
    simp [powModF]
  | fuel + 1, a, e, n => by
    intro hn he
    rw [powModF]
    by_cases h0 : e = 0
    · subst h0
      simp
    · rw [if_neg h0]
      have h2p : 2 ^ (fuel + 1) = 2 * 2 ^ fuel := by ring
      have hrec := powModF_spec fuel ((a * a) % n) (e / 2) n hn (by omega)
      have key : ((a * a) % n) ^ (e / 2) % n = a ^ (2 * (e / 2)) % n := by
        rw [← Nat.pow_mod, ← Nat.pow_two, ← Nat.pow_mul]
      by_cases hodd : e % 2 = 1
      · rw [if_pos hodd]
        show (powModF fuel ((a * a) % n) (e / 2) n * a) % n = a ^ e % n
        rw [hrec, key, Nat.mod_mul_mod, ← pow_succ]
        have : 2 * (e / 2) + 1 = e := by omega
        rw [this]
      · rw [if_neg hodd]
        show powModF fuel ((a * a) % n) (e / 2) n = a ^ e % n
        rw [hrec, key]
        have : 2 * (e / 2) = e := by omega
        rw [this]

/-- `a ^ e mod n` for exponents below 2⁶⁴. -/
def powMod (a e n : Nat) : Nat := powModF 64 a e n

theorem powMod_spec (a e n : Nat) (hn : 0 < n) (he : e < 2 ^ 64) :
    powMod a e n = a ^ e % n :=
  powModF_spec 64 a e n hn he

theorem zmod_pow_eq_cast (p a e : Nat) (hp : 0 < p) (he : e < 2 ^ 64) :
    ((a : Nat) : ZMod p) ^ e = ((powMod a e p : Nat) : ZMod p) := by
  rw [powMod_spec a e p hp he, ← Nat.cast_pow, ← ZMod.natCast_mod]

theorem zmod_cast_ne_one {p v : Nat} (hp : 1 < p) (hv : v < p) (hne : v ≠ 1) :
    ((v : Nat) : ZMod p) ≠ 1 := by
  haveI : NeZero p := ⟨by omega⟩
  intro h
  rw [show (1 : ZMod p) = ((1 : Nat) : ZMod p) from (Nat.cast_one).symm] at h
  have hval := congrArg ZMod.val h
  rw [ZMod.val_cast_of_lt hv, ZMod.val_cast_of_lt (by omega)] at hval
  exact hne hval


theorem lucas_step_one (p a e : Nat) (hp : 0 < p) (he : e < 2 ^ 64)
    (hv : powMod a e p = 1) : ((a : Nat) : ZMod p) ^ e = 1 := by
  rw [zmod_pow_eq_cast p a e hp he, hv]
  exact Nat.cast_one

theorem lucas_step_ne (p a e v : Nat) (hp : 1 < p) (he : e < 2 ^ 64)
    (hv : powMod a e p = v) (hne : v ≠ 1) (hvp : v < p) :
    ((a : Nat) : ZMod p) ^ e ≠ 1 := by
  rw [zmod_pow_eq_cast p a e (by omega) he, hv]
  exact zmod_cast_ne_one hp hvp hne

/-- `319279` is prime (Lucas certificate, witness 3,
`319278 = 2 · 3 · 127 · 419`). -/
theorem prime_319279 : Nat.Prime 319279 := by
  have h1 : (319279 : Nat) - 1 = 319278 := by norm_num
  apply lucas_primality 319279 ((3 : Nat) : ZMod 319279)
  · rw [h1]
    exact lucas_step_one _ 3 _ (by norm_num) (by norm_num) (by decide)
  · intro q hq hdvd
    rw [h1] at hdvd ⊢
    rw [show (319278 : Nat) = 2 * 3 * 127 * 419 from by norm_num] at hdvd
    rcases (Nat.Prime.dvd_mul hq).mp hdvd with h | h
    · rcases (Nat.Prime.dvd_mul hq).mp h with h | h
      · rcases (Nat.Prime.dvd_mul hq).mp h with h | h
        · obtain rfl := (Nat.prime_dvd_prime_iff_eq hq Nat.prime_two).mp h
          exact lucas_step_ne _ 3 _ 319278 (by norm_num) (by norm_num)
            (by decide) (by norm_num) (by norm_num)
        · obtain rfl := (Nat.prime_dvd_prime_iff_eq hq Nat.prime_three).mp h
          exact lucas_step_ne _ 3 _ 113723 (by norm_num) (by norm_num)
            (by decide) (by norm_num) (by norm_num)
      · obtain rfl := (Nat.prime_dvd_prime_iff_eq hq (by norm_num)).mp h
        exact lucas_step_ne _ 3 _ 188855 (by norm_num) (by norm_num)
          (by decide) (by norm_num) (by norm_num)
    · obtain rfl := (Nat.prime_dvd_prime_iff_eq hq (by norm_num)).mp h
      exact lucas_step_ne _ 3 _ 149384 (by norm_num) (by norm_num)
        (by decide) (by norm_num) (by norm_num)

/-- `456065899` is prime (Lucas certificate, witness 2,
`456065898 = 2 · 3 · 1471 · 51673`). -/
theorem prime_456065899 : Nat.Prime 456065899 := by
  have h1 : (456065899 : Nat) - 1 = 456065898 := by norm_num
  apply lucas_primality 456065899 ((2 : Nat) : ZMod 456065899)
  · rw [h1]
    exact lucas_step_one _ 2 _ (by norm_num) (by norm_num) (by decide)
  · intro q hq hdvd
    rw [h1] at hdvd ⊢
    rw [show (456065898 : Nat) = 2 * 3 * 1471 * 51673 from by norm_num] at hdvd
    rcases (Nat.Prime.dvd_mul hq).mp hdvd with h | h
    · rcases (Nat.Prime.dvd_mul hq).mp h with h | h
      · rcases (Nat.Prime.dvd_mul hq).mp h with h | h
        · obtain rfl := (Nat.prime_dvd_prime_iff_eq hq Nat.prime_two).mp h
          exact lucas_step_ne _ 2 _ 456065898 (by norm_num) (by norm_num)
            (by decide) (by norm_num) (by norm_num)
        · obtain rfl := (Nat.prime_dvd_prime_iff_eq hq Nat.prime_three).mp h
          exact lucas_step_ne _ 2 _ 4892133 (by norm_num) (by norm_num)
            (by decide) (by norm_num) (by norm_num)
      · obtain rfl := (Nat.prime_dvd_prime_iff_eq hq (by norm_num)).mp h
        exact lucas_step_ne _ 2 _ 309613375 (by norm_num) (by norm_num)
          (by decide) (by norm_num) (by norm_num)
    · obtain rfl := (Nat.prime_dvd_prime_iff_eq hq (by norm_num)).mp h
      exact lucas_step_ne _ 2 _ 97832956 (by norm_num) (by norm_num)
        (by decide) (by norm_num) (by norm_num)

/-- Complete prime factorisation of `MOD - 1`:
`9223372036854775782 = 2 · 3⁴ · 17 · 23 · 319279 · 456065899`. -/
theorem pm1_prime_divisors (q : Nat) (hq : q.Prime)
    (hdvd : q ∣ 9223372036854775782) :
    q = 2 ∨ q = 3 ∨ q = 17 ∨ q = 23 ∨ q = 319279 ∨ q = 456065899 := by
  have hfact : (9223372036854775782 : Nat) =
      2 * 3 ^ 4 * 17 * 23 * 319279 * 456065899 := by norm_num
  rw [hfact] at hdvd
  have hp2 : Nat.Prime 319279 := prime_319279
  have hp3 : Nat.Prime 456065899 := prime_456065899
  rcases (Nat.Prime.dvd_mul hq).mp hdvd with h | h
  · rcases (Nat.Prime.dvd_mul hq).mp h with h | h
    · rcases (Nat.Prime.dvd_mul hq).mp h with h | h
      · rcases (Nat.Prime.dvd_mul hq).mp h with h | h
        · rcases (Nat.Prime.dvd_mul hq).mp h with h | h
          · exact Or.inl ((Nat.prime_dvd_prime_iff_eq hq Nat.prime_two).mp h)
          · exact Or.inr (Or.inl ((Nat.prime_dvd_prime_iff_eq hq
              Nat.prime_three).mp (Nat.Prime.dvd_of_dvd_pow hq h)))
        · exact Or.inr (Or.inr (Or.inl ((Nat.prime_dvd_prime_iff_eq hq
            (by norm_num)).mp h)))
      · exact Or.inr (Or.inr (Or.inr (Or.inl ((Nat.prime_dvd_prime_iff_eq hq
          (by norm_num)).mp h))))
    · exact Or.inr (Or.inr (Or.inr (Or.inr (Or.inl
        ((Nat.prime_dvd_prime_iff_eq hq hp2).mp h)))))
  · exact Or.inr (Or.inr (Or.inr (Or.inr (Or.inr
      ((Nat.prime_dvd_prime_iff_eq hq hp3).mp h)))))

set_option maxRecDepth 100000 in
set_option maxHeartbeats 1000000 in
/-- `MOD` is prime, by the Lucas primality test with witness 3 and the
factorisation of `MOD - 1`. -/
theorem mod_prime : Nat.Prime 9223372036854775783 := by
  have hm1 : (9223372036854775783 : Nat) - 1 = 9223372036854775782 := by norm_num
  apply lucas_primality 9223372036854775783 ((3 : Nat) : ZMod 9223372036854775783)
  · rw [hm1, zmod_pow_eq_cast _ 3 _ (by norm_num) (by norm_num)]
    rw [show powMod 3 9223372036854775782 9223372036854775783 = 1 from by decide]
    exact Nat.cast_one
  · intro q hq hdvd
    rw [hm1] at hdvd
    rw [hm1]
    rcases pm1_prime_divisors q hq hdvd with rfl | rfl | rfl | rfl | rfl | rfl
    · rw [show (9223372036854775782 : Nat) / 2 = 4611686018427387891 from by norm_num]
      rw [zmod_pow_eq_cast _ 3 _ (by norm_num) (by norm_num)]
      rw [show powMod 3 4611686018427387891 9223372036854775783
          = 9223372036854775782 from by decide]
      exact zmod_cast_ne_one (by norm_num) (by norm_num) (by norm_num)
    · rw [show (9223372036854775782 : Nat) / 3 = 3074457345618258594 from by norm_num]
      rw [zmod_pow_eq_cast _ 3 _ (by norm_num) (by norm_num)]
      rw [show powMod 3 3074457345618258594 9223372036854775783
          = 8755078512587387851 from by decide]
      exact zmod_cast_ne_one (by norm_num) (by norm_num) (by norm_num)
    · rw [show (9223372036854775782 : Nat) / 17 = 542551296285575046 from by norm_num]
      rw [zmod_pow_eq_cast _ 3 _ (by norm_num) (by norm_num)]
      rw [show powMod 3 542551296285575046 9223372036854775783
          = 8464348998524850532 from by decide]
      exact zmod_cast_ne_one (by norm_num) (by norm_num) (by norm_num)
    · rw [show (9223372036854775782 : Nat) / 23 = 401016175515425034 from by norm_num]
      rw [zmod_pow_eq_cast _ 3 _ (by norm_num) (by norm_num)]
      rw [show powMod 3 401016175515425034 9223372036854775783
          = 486607776917862132 from by decide]
      exact zmod_cast_ne_one (by norm_num) (by norm_num) (by norm_num)
    · rw [show (9223372036854775782 : Nat) / 319279 = 28888126174458 from by norm_num]
      rw [zmod_pow_eq_cast _ 3 _ (by norm_num) (by norm_num)]
      rw [show powMod 3 28888126174458 9223372036854775783
          = 6351062463548946063 from by decide]
      exact zmod_cast_ne_one (by norm_num) (by norm_num) (by norm_num)
    · rw [show (9223372036854775782 : Nat) / 456065899 = 20223770418 from by norm_num]
      rw [zmod_pow_eq_cast _ 3 _ (by norm_num) (by norm_num)]
      rw [show powMod 3 20223770418 9223372036854775783
          = 7493501763440727762 from by decide]
      exact zmod_cast_ne_one (by norm_num) (by norm_num) (by norm_num)

theorem not_prime_of_factor (n d c : Nat) (h : n = d * c) (h1 : 1 < d)
    (h2 : d < n) : ¬ n.Prime := by
  intro hp
  rcases Nat.Prime.eq_one_or_self_of_dvd hp d ⟨c, h⟩ with h3 | h3 <;> omega

/-- C10: `BASE` is 2⁶³ = 9223372036854775808, `MOD` is the prime
9223372036854775783, and `MOD` is the largest prime strictly below
`BASE`. -/
theorem base_mod_spec :
    BASE = 9223372036854775808 ∧ MOD = 9223372036854775783 ∧
    Nat.Prime MOD.toNat ∧
    ∀ k : Nat, Nat.Prime k → k < BASE → (k : Int) ≤ MOD := by
  have hb : BASE = 9223372036854775808 := by decide
  refine ⟨hb, rfl, mod_prime, ?_⟩
  intro k hk hlt
  rw [hb] at hlt
  by_contra hgt
  push_neg at hgt
  have hk1 : 9223372036854775783 < k := by
    have hM : MOD = (9223372036854775783 : Int) := rfl
    rw [hM] at hgt
    exact_mod_cast hgt
  clear hgt
  have hcases : k = 9223372036854775784 ∨
      k = 9223372036854775785 ∨
      k = 9223372036854775786 ∨
      k = 9223372036854775787 ∨
      k = 9223372036854775788 ∨
      k = 9223372036854775789 ∨
      k = 9223372036854775790 ∨
      k = 9223372036854775791 ∨
      k = 9223372036854775792 ∨
      k = 9223372036854775793 ∨
      k = 9223372036854775794 ∨
      k = 9223372036854775795 ∨
      k = 9223372036854775796 ∨
      k = 9223372036854775797 ∨
      k = 9223372036854775798 ∨
      k = 9223372036854775799 ∨
      k = 9223372036854775800 ∨
      k = 9223372036854775801 ∨
      k = 9223372036854775802 ∨
      k = 9223372036854775803 ∨
      k = 9223372036854775804 ∨
      k = 9223372036854775805 ∨
      k = 9223372036854775806 ∨
      k = 9223372036854775807 := by omega
  rcases hcases with rfl | rfl | rfl | rfl | rfl | rfl | rfl | rfl | rfl | rfl | rfl | rfl | rfl | rfl | rfl | rfl | rfl | rfl | rfl | rfl | rfl | rfl | rfl | rfl
  · exact absurd hk (not_prime_of_factor _ 2 4611686018427387892 (by norm_num) (by norm_num) (by norm_num))
  · exact absurd hk (not_prime_of_factor _ 3 3074457345618258595 (by norm_num) (by norm_num) (by norm_num))
  · exact absurd hk (not_prime_of_factor _ 2 4611686018427387893 (by norm_num) (by norm_num) (by norm_num))
  · exact absurd hk (not_prime_of_factor _ 13 709490156681136599 (by norm_num) (by norm_num) (by norm_num))
  · exact absurd hk (not_prime_of_factor _ 2 4611686018427387894 (by norm_num) (by norm_num) (by norm_num))
  · exact absurd hk (not_prime_of_factor _ 11 838488366986797799 (by norm_num) (by norm_num) (by norm_num))
  · exact absurd hk (not_prime_of_factor _ 2 4611686018427387895 (by norm_num) (by norm_num) (by norm_num))
  · exact absurd hk (not_prime_of_factor _ 3 3074457345618258597 (by norm_num) (by norm_num) (by norm_num))
  · exact absurd hk (not_prime_of_factor _ 2 4611686018427387896 (by norm_num) (by norm_num) (by norm_num))
  · exact absurd hk (not_prime_of_factor _ 7 1317624576693539399 (by norm_num) (by norm_num) (by norm_num))
  · exact absurd hk (not_prime_of_factor _ 2 4611686018427387897 (by norm_num) (by norm_num) (by norm_num))
  · exact absurd hk (not_prime_of_factor _ 5 1844674407370955159 (by norm_num) (by norm_num) (by norm_num))
  · exact absurd hk (not_prime_of_factor _ 2 4611686018427387898 (by norm_num) (by norm_num) (by norm_num))
  · exact absurd hk (not_prime_of_factor _ 3 3074457345618258599 (by norm_num) (by norm_num) (by norm_num))
  · exact absurd hk (not_prime_of_factor _ 2 4611686018427387899 (by norm_num) (by norm_num) (by norm_num))
  · exact absurd hk (not_prime_of_factor _ 17 542551296285575047 (by norm_num) (by norm_num) (by norm_num))
  · exact absurd hk (not_prime_of_factor _ 2 4611686018427387900 (by norm_num) (by norm_num) (by norm_num))
  · exact absurd hk (not_prime_of_factor _ 157 58747592591431693 (by norm_num) (by norm_num) (by norm_num))
  · exact absurd hk (not_prime_of_factor _ 2 4611686018427387901 (by norm_num) (by norm_num) (by norm_num))
  · exact absurd hk (not_prime_of_factor _ 3 3074457345618258601 (by norm_num) (by norm_num) (by norm_num))
  · exact absurd hk (not_prime_of_factor _ 2 4611686018427387902 (by norm_num) (by norm_num) (by norm_num))
  · exact absurd hk (not_prime_of_factor _ 5 1844674407370955161 (by norm_num) (by norm_num) (by norm_num))
  · exact absurd hk (not_prime_of_factor _ 2 4611686018427387903 (by norm_num) (by norm_num) (by norm_num))
  · exact absurd hk (not_prime_of_factor _ 7 1317624576693539401 (by norm_num) (by norm_num) (by norm_num))

/-- C10 witness: the largest-prime bound applied to the prime 7. -/
theorem base_mod_spec_witness : (7 : Int) ≤ MOD :=
  base_mod_spec.2.2.2 7 (by norm_num) (by decide)

end TG

